import Mathlib

/-!
Verification of the batch data-file translator (`src/trans_batch.py`).

Strings are modelled as lists of characters (`List Char`), matching
Python's view of a string as a sequence of code points; all helper
operations (strip, split, replace, case mapping) are written out as
structural recursions over such lists, restricted to the ASCII range in
which the tool's heuristics operate.  Python early-return chains are
rendered as boolean disjunctions; the external translation backend is an
explicit parameter; file input/output is modelled on the list of lines
that `readlines` would produce (each line keeping its terminator).
-/

/-- Characters of a string literal, used to write `List Char` constants. -/
def chars (s : String) : List Char := s.data

/-- Characters stripped by Python's `str.strip()` (ASCII whitespace). -/
def isPySpace (c : Char) : Bool :=
  c = ' ' || c = '\t' || c = '\n' || c = '\r' || c = Char.ofNat 11 || c = Char.ofNat 12

/-- Python `str.strip()`: drop whitespace at both ends. -/
def pstrip (cs : List Char) : List Char :=
  ((cs.dropWhile isPySpace).reverse.dropWhile isPySpace).reverse

/-- Sign characters stripped by `lstrip('-+')`. -/
def isSign (c : Char) : Bool := c = '-' || c = '+'

/-- Python `str.isdigit()` on ASCII text: nonempty and all digits. -/
def pyIsdigit (cs : List Char) : Bool := !cs.isEmpty && cs.all Char.isDigit

/-- Drop a single leading `+`/`-`, as done by Python's float parser. -/
def stripOneSign : List Char → List Char
  | [] => []
  | c :: rest => if isSign c then rest else c :: rest

/-- Continuation of a Python float digit part after its first digit:
consume further digits, allowing a single underscore between digits. -/
def afterDigit : List Char → List Char
  | [] => []
  | c :: rest =>
    if c.isDigit then afterDigit rest
    else if c = '_' then
      match rest with
      | d :: rest2 => if d.isDigit then afterDigit rest2 else c :: rest
      | [] => c :: rest
    else c :: rest

/-- Consume a Python float `digitpart` (digit, then digits with optional
single underscores between them); `none` if no leading digit. -/
def digitRun : List Char → Option (List Char)
  | [] => none
  | c :: rest => if c.isDigit then some (afterDigit rest) else none

/-- Trailing exponent of a Python float literal: either nothing, or
`e`/`E`, an optional sign and a digit part reaching the end. -/
def pyExp : List Char → Bool
  | [] => true
  | c :: rest =>
    if c = 'e' || c = 'E' then
      let rest2 := match rest with
        | s :: r => if isSign s then r else s :: r
        | [] => []
      match digitRun rest2 with
      | some [] => true
      | _ => false
    else false

/-- Body of a Python float literal after the optional sign: an integer
part and/or fractional part (at least one digit overall) and an optional
exponent. -/
def pyNumber (cs : List Char) : Bool :=
  match digitRun cs with
  | some r1 =>
    if r1.head? = some '.' then
      match digitRun r1.tail with
      | some r3 => pyExp r3
      | none => pyExp r1.tail
    else pyExp r1
  | none =>
    if cs.head? = some '.' then
      match digitRun cs.tail with
      | some r3 => pyExp r3
      | none => false
    else false

/-- Acceptance of Python's `float()` on an already-stripped string:
optional sign, then `inf`/`infinity`/`nan` (case-insensitive) or a
numeric literal. -/
def pyFloat (cs : List Char) : Bool :=
  let body := stripOneSign cs
  let low := body.map Char.toLower
  if low = chars "inf" || low = chars "infinity" || low = chars "nan" then true
  else pyNumber body

/-- The `,` to `.` substitution used for European decimals. -/
def commaDot (c : Char) : Char := if c = ',' then '.' else c

/-- Python `text.upper().endswith('E')`: last character is `E` or `e`. -/
def endsInE (cs : List Char) : Bool :=
  match (cs.map Char.toUpper).getLast? with
  | some c => c = 'E'
  | none => false

/-- The regex `^[+-]?\d+\.?\d*E[+-]?\d*$` applied to the uppercased text. -/
def matchSci (cs : List Char) : Bool :=
  let cs := stripOneSign cs
  let d1 := cs.takeWhile Char.isDigit
  let r1 := cs.dropWhile Char.isDigit
  if d1.isEmpty then false
  else
    let r2 := match r1 with
      | '.' :: r => r
      | _ => r1
    let r3 := r2.dropWhile Char.isDigit
    match r3 with
    | 'E' :: r4 =>
      let r5 := match r4 with
        | c :: r => if isSign c then r else c :: r
        | [] => []
      r5.all Char.isDigit
    | _ => false

/-- The regex `^[+-]?\d+[EN]$` applied to the uppercased text. -/
def matchEN (cs : List Char) : Bool :=
  let cs := stripOneSign cs
  let d1 := cs.takeWhile Char.isDigit
  let r1 := cs.dropWhile Char.isDigit
  !d1.isEmpty && (r1 = ['E'] || r1 = ['N'])

/-- The regex `^\d+/\d+$` (simple fraction). -/
def matchFrac (cs : List Char) : Bool :=
  let d1 := cs.takeWhile Char.isDigit
  let r1 := cs.dropWhile Char.isDigit
  !d1.isEmpty &&
    (match r1 with
     | '/' :: r2 => !r2.isEmpty && r2.all Char.isDigit
     | _ => false)

/-- `is_number_or_scientific` from `src/trans_batch.py` (lines 8-45); the
early-return chain is rendered as a disjunction of its checks, in source
order: empty/bare sign, all-digits after `lstrip('-+')`, `float(text)`,
`float(text.replace(',', '.'))`, bare trailing `E` or the scientific
regex, the `E`/`N`-suffix regex, and the fraction regex. -/
def is_number_or_scientific (s : List Char) : Bool :=
  let text := pstrip s
  (text = [] || text = chars "-" || text = chars "+")
  || pyIsdigit (text.dropWhile isSign)
  || pyFloat text
  || pyFloat (text.map commaDot)
  || (endsInE text || matchSci (text.map Char.toUpper))
  || matchEN (text.map Char.toUpper)
  || matchFrac text

/-- Spec-side notion of "standard decimal number" (spec 4.1 rules 3-4):
an optional single sign, then either digits with an optional fractional
part, or a fractional part alone; no exponent, no grouping. -/
def specDecimal (t : List Char) : Bool :=
  let u := stripOneSign t
  let d1 := u.takeWhile Char.isDigit
  let r1 := u.dropWhile Char.isDigit
  if d1.isEmpty then u.head? = some '.' && pyIsdigit u.tail
  else r1.isEmpty || (r1.head? = some '.' && r1.tail.all Char.isDigit)

/-- The numeric-like forms exactly as the spec lists them (spec 4.1): an
empty or bare-sign string; a digit string after a SINGLE leading sign; a
standard decimal; a European comma decimal; the scientific-notation
shape `[sign]digits[.digits]E[sign][digits]` (which includes the shapes
ending in a bare `E`), case-insensitive; `[sign]digits` with one
trailing `E`/`N`; a `digits/digits` fraction.  The classifier is
specified to receive trimmed input, so the text is stripped first. -/
def specNumberForm (s : List Char) : Bool :=
  let t := pstrip s
  (t = [] || t = chars "-" || t = chars "+")
  || pyIsdigit (stripOneSign t)
  || specDecimal t
  || specDecimal (t.map commaDot)
  || matchSci (t.map Char.toUpper)
  || matchEN (t.map Char.toUpper)
  || matchFrac t

/-- The extra inputs the code accepts beyond the spec's listed forms:
digit strings after stripping ANY run of leading signs; anything Python
`float()` accepts (exponents without an integer part, underscore digit
grouping, `inf`/`infinity`/`nan`), directly or after comma-to-dot
substitution; and any string whose last letter is `e`/`E`. -/
def amendedExtras (s : List Char) : Bool :=
  let t := pstrip s
  pyIsdigit (t.dropWhile isSign)
  || pyFloat t
  || pyFloat (t.map commaDot)
  || endsInE t

/-- Structural type tag of an extracted item / update (the `'type'`
field of the Python dicts). -/
inductive UType where
  | key_value
  | colon_value
  | csv_cell
  | full_line
deriving DecidableEq

/-- One translatable item produced by `extract_translatable_content`
(the per-item dict; `key` and `column_index` are only meaningful for the
types that set them, mirroring the optional dict fields). -/
structure Item where
  line_num : Nat
  key : List Char := []
  value : List Char
  original_line : List Char
  type : UType
  column_index : Nat := 0
deriving DecidableEq

/-- Python `line.split(';')`. -/
def splitSemi : List Char → List (List Char)
  | [] => [[]]
  | c :: rest =>
    if c = ';' then [] :: splitSemi rest
    else
      match splitSemi rest with
      | s :: ss => (c :: s) :: ss
      | [] => [[c]]

/-- Python `line.split('=', 1)[0]`: the part before the first `=`. -/
def eqKey (line : List Char) : List Char :=
  line.takeWhile (fun c => !(c = '='))

/-- The trimmed part after the first `=` of a line containing one,
`line.split('=', 1)[1].strip()`. -/
def eqValue (line : List Char) : List Char :=
  pstrip ((line.dropWhile (fun c => !(c = '='))).tail)

/-- Python `line.split(': ', 1)`: break at the first `": "`, returning
the parts before and after it; `none` when the separator is absent. -/
def breakOnCS : List Char → Option (List Char × List Char)
  | ':' :: ' ' :: rest => some ([], rest)
  | c :: rest => (breakOnCS rest).map (fun p => (c :: p.1, p.2))
  | [] => none

/-- The regex `re.search(r'[a-zA-Z]', s)`: contains an ASCII letter. -/
def hasLetter (cs : List Char) : Bool :=
  cs.any (fun c => ('a' ≤ c && c ≤ 'z') || ('A' ≤ c && c ≤ 'Z'))

/-- The per-column loop of the semicolon branch (lines 104-130): strip
each field, skip empty/`-`/numeric/short/bracketed fields, and emit a
`csv_cell` item for each surviving field containing a letter. -/
def csvItems (line_num : Nat) (original_line : List Char) (idx : Nat) :
    List (List Char) → List Item
  | [] => []
  | p :: rest =>
    let part := pstrip p
    (if part = [] || part = chars "-" || is_number_or_scientific part
        || decide (part.length < 2) then []
     else if part.contains '[' && part.contains ']' then []
     else if hasLetter part then
       [{ line_num := line_num, value := part, original_line := original_line,
          type := UType.csv_cell, column_index := idx }]
     else [])
    ++ csvItems line_num original_line (idx + 1) rest

/-- The per-line body of `extract_translatable_content` (lines 68-174):
skip blank/comment/section lines, then classify by the first matching
separator (`=`, then `;`, then `": "`, then whole line) and apply that
branch's translatability checks. -/
def extractLine (line_num : Nat) (original_line : List Char) : List Item :=
  let line := pstrip original_line
  if line = [] || (chars "#").isPrefixOf line || (chars "[").isPrefixOf line
      || (chars "//").isPrefixOf line then []
  else if line.contains '=' then
    let key := eqKey line
    let value := eqValue line
    if value = [] || (chars "C:\\").isPrefixOf value
        || is_number_or_scientific value || decide (value.length < 2) then []
    else if value.contains '[' && value.contains ']' then []
    else if hasLetter value && !((chars "http").isPrefixOf value) then
      [{ line_num := line_num, key := pstrip key, value := value,
         original_line := original_line, type := UType.key_value }]
    else []
  else if line.contains ';' then
    csvItems line_num original_line 0 (splitSemi line)
  else
    match breakOnCS line with
    | some (key, v) =>
      let value := pstrip v
      if value = [] || is_number_or_scientific value
          || decide (value.length < 2) then []
      else if value.contains '[' && value.contains ']' then []
      else if hasLetter value then
        [{ line_num := line_num, key := pstrip key, value := value,
           original_line := original_line, type := UType.colon_value }]
      else []
    | none =>
      if line.contains '[' && line.contains ']' then []
      else if hasLetter line && decide (2 ≤ line.length) then
        [{ line_num := line_num, value := line, original_line := original_line,
           type := UType.full_line }]
      else []

/-- `extract_translatable_content` over the decoded lines of a file:
the per-line extraction applied to each line with its index. -/
def extract_translatable_content (content : List (List Char)) : List Item :=
  (content.enum).flatMap (fun nl => extractLine nl.1 nl.2)

/-- Classification of a (stripped) line by the first matching separator,
in the order the code checks them: `=`, then `;`, then `": "`, then the
free-text fallback. -/
def lineClass (line : List Char) : UType :=
  if line.contains '=' then UType.key_value
  else if line.contains ';' then UType.csv_cell
  else if (breakOnCS line).isSome then UType.colon_value
  else UType.full_line

/-- One translation update consumed by the rewriter (the per-update
dict built in `process_files_batch`; unused fields default). -/
structure Update where
  line_num : Nat
  translated_value : List Char
  type : UType
  key : List Char := []
  original_line : List Char := []
  column_index : Nat := 0
deriving DecidableEq

/-- Python `';'.join(parts)`. -/
def joinSemi : List (List Char) → List Char
  | [] => []
  | [p] => p
  | p :: ps => p ++ ';' :: joinSemi ps

/-- The replacement line built for one update (lines 295-313): rebuild
`key=value` / `key: value`, re-split the stored original line for a csv
cell and replace its column, or use the translated value alone; always
append a newline. -/
def synthLine (u : Update) : List Char :=
  match u.type with
  | UType.key_value => u.key ++ '=' :: u.translated_value ++ ['\n']
  | UType.colon_value => u.key ++ ':' :: ' ' :: u.translated_value ++ ['\n']
  | UType.csv_cell =>
    let parts := splitSemi (pstrip u.original_line)
    let parts :=
      if u.column_index < parts.length then
        parts.set u.column_index u.translated_value
      else parts
    joinSemi parts ++ ['\n']
  | UType.full_line => u.translated_value ++ ['\n']

/-- One iteration of the update loop (lines 289-315): replace the line
at `line_num` when it is in range, otherwise leave the content alone. -/
def applyUpdate (content : List (List Char)) (u : Update) : List (List Char) :=
  if u.line_num < content.length then content.set u.line_num (synthLine u)
  else content

/-- `update_file_with_translations` on the decoded lines of the file:
apply each update in order.  (The surrounding file I/O is modelled by
`outputName` and `outputEncoding` below.) -/
def update_file_with_translations (content : List (List Char))
    (updates : List Update) : List (List Char) :=
  updates.foldl applyUpdate content

/-- Worker for Python `s.replace(old, new)`: replace non-overlapping
occurrences left to right.  The fuel only bounds the recursion (each
step consumes at least one character, so `s.length` steps suffice); it
is threaded structurally so that the definition evaluates by kernel
reduction. -/
def replFuel (old new : List Char) : Nat → List Char → List Char
  | 0, s => s
  | _, [] => []
  | fuel + 1, c :: rest =>
    if old ≠ [] ∧ old.isPrefixOf (c :: rest) then
      new ++ replFuel old new fuel ((c :: rest).drop old.length)
    else c :: replFuel old new fuel rest

/-- Python `s.replace(old, new)` for a nonempty pattern.  (The
degenerate empty pattern never occurs in the source's calls and is left
unchanged.) -/
def replaceAll (s old new : List Char) : List Char :=
  replFuel old new s.length s

/-- The output file name (line 318): replace every occurrence of `.dat`
and then every occurrence of `.txt` with the `_translated` variant. -/
def outputName (name : List Char) : List Char :=
  replaceAll (replaceAll name (chars ".dat") (chars "_translated.dat"))
    (chars ".txt") (chars "_translated.txt")

/-- The encoding passed to `open` when writing the output (line 321). -/
def outputEncoding : List Char := chars "utf-8"

/-- Python `sub in s` (substring containment). -/
def containsSub (pat : List Char) : List Char → Bool
  | [] => pat.isPrefixOf []
  | c :: rest => pat.isPrefixOf (c :: rest) || containsSub pat rest

/-- Lowercasing of an error description, `str(e).lower()` on ASCII. -/
def lowerMsg (e : List Char) : List Char := e.map Char.toLower

/-- Network classification of a failure (line 197): the lowercased
description contains one of the connection/timeout/TLS/handshake/
interruption keywords. -/
def netErr (e : List Char) : Bool :=
  let msg := lowerMsg e
  containsSub (chars "network") msg || containsSub (chars "connection") msg
  || containsSub (chars "timeout") msg || containsSub (chars "ssl") msg
  || containsSub (chars "handshake") msg
  || containsSub (chars "keyboardinterrupt") msg

/-- Outcome of one translation attempt by the external backend: the
translated text, or a failure with its description. -/
abbrev Attempt := Nat → Except (List Char) (List Char)

/-- Worker for `translate_block_with_retry`, with the sleeps made
observable: the result (`none` = fall back to the original texts) paired
with the list of backoff delays `(retry_count + 1) * 2` actually slept.
The backend is indexed by the attempt number so that every sequence of
per-attempt outcomes can be expressed; the remaining retry budget
`maxRetries - retryCount` is threaded structurally (the source's guard
`retry_count < max_retries` is exactly `budget > 0`). -/
def tbwrGo (backend : Attempt) (retryCount : Nat) :
    Nat → Option (List Char) × List Nat
  | 0 =>
    match backend retryCount with
    | Except.ok t => (some t, [])
    | Except.error _ => (none, [])
  | b + 1 =>
    match backend retryCount with
    | Except.ok t => (some t, [])
    | Except.error e =>
      if netErr e then
        let r := tbwrGo backend (retryCount + 1) b
        (r.1, (retryCount + 1) * 2 :: r.2)
      else (none, [])

/-- `translate_block_with_retry` (lines 189-208). -/
def translate_block_with_retry (backend : Attempt) (maxRetries : Nat)
    (retryCount : Nat) : Option (List Char) × List Nat :=
  tbwrGo backend retryCount (maxRetries - retryCount)

/-- Python `"\n\n".join`. -/
def joinDNL : List (List Char) → List Char
  | [] => []
  | [p] => p
  | p :: ps => p ++ '\n' :: '\n' :: joinDNL ps

/-- Python `s.split("\n\n")`: split on non-overlapping double newlines,
leftmost first. -/
def splitDNL : List Char → List (List Char)
  | [] => [[]]
  | '\n' :: '\n' :: rest => [] :: splitDNL rest
  | c :: rest =>
    match splitDNL rest with
    | s :: ss => (c :: s) :: ss
    | [] => [[c]]

/-- A block's translation result for the whole file pipeline: the
retry wrapper started at attempt 0, keeping only the returned text. -/
def blockResult (backend : List Char → Attempt) (maxRetries : Nat)
    (blockText : List Char) : Option (List Char) :=
  (translate_block_with_retry (backend blockText) maxRetries 0).1

/-- Post-processing of one flushed block (lines 218-232 and 247-260):
on failure or an empty blob, fall back to the original block texts;
otherwise
strip and split the blob on the double-newline separator, pad missing
tail segments with the corresponding original texts, and discard excess
segments. -/
def processBlock (tb : Option (List Char)) (block : List (List Char)) :
    List (List Char) :=
  match tb with
  | none => block
  | some t =>
    if t = [] then block
    else
      let segs := splitDNL (pstrip t)
      (segs ++ block.drop segs.length).take block.length

/-- The accumulation loop of `translate_texts_in_blocks` (lines
210-260): flush the current block before a text that would overflow the
budget, and flush the remainder at the end.  `curLen` counts each text's
length plus 2 for the separator, as the source does. -/
def ttibGo (backend : List Char → Attempt) (mbs mr : Nat)
    (acc cur : List (List Char)) (curLen : Nat) :
    List (List Char) → List (List Char)
  | [] =>
    if cur = [] then acc
    else acc ++ processBlock (blockResult backend mr (joinDNL cur)) cur
  | t :: rest =>
    if curLen + t.length > mbs ∧ cur ≠ [] then
      ttibGo backend mbs mr
        (acc ++ processBlock (blockResult backend mr (joinDNL cur)) cur)
        [t] (t.length + 2) rest
    else
      ttibGo backend mbs mr acc (cur ++ [t]) (curLen + t.length + 2) rest

/-- `translate_texts_in_blocks` (lines 181-265) with its defaults
`max_block_size=3000`, `max_retries=3`. -/
def translate_texts_in_blocks (backend : List Char → Attempt)
    (texts : List (List Char)) (mbs : Nat := 3000) (mr : Nat := 3) :
    List (List Char) :=
  ttibGo backend mbs mr [] [] 0 texts

/-- The block boundaries produced by the accumulation loop, without the
translation step: used to state which texts travel together. -/
def chunksGo (mbs : Nat) (cur : List (List Char)) (curLen : Nat) :
    List (List Char) → List (List (List Char))
  | [] => if cur = [] then [] else [cur]
  | t :: rest =>
    if curLen + t.length > mbs ∧ cur ≠ [] then
      cur :: chunksGo mbs [t] (t.length + 2) rest
    else
      chunksGo mbs (cur ++ [t]) (curLen + t.length + 2) rest

/-- The blocks into which an input list is chunked. -/
def blocksOf (mbs : Nat) (texts : List (List Char)) :
    List (List (List Char)) :=
  chunksGo mbs [] 0 texts

/-- Output of one block inside the pipeline. -/
def blockOut (backend : List Char → Attempt) (mr : Nat)
    (b : List (List Char)) : List (List Char) :=
  processBlock (blockResult backend mr (joinDNL b)) b

/-- A line ends with exactly one newline terminator. -/
def endsOneNL (cs : List Char) : Bool :=
  match cs.reverse with
  | '\n' :: rest =>
    match rest with
    | '\n' :: _ => false
    | _ => true
  | _ => false

/-- No newline inside the fields an update contributes to its line. -/
def noNL (u : Update) : Bool :=
  !(u.translated_value.contains '\n') && !(u.key.contains '\n')
    && !(u.original_line.contains '\n')

/-- Whether a backend attempt failed with a network-classified error. -/
def isNetFail (r : Except (List Char) (List Char)) : Bool :=
  match r with
  | Except.error e => netErr e
  | Except.ok _ => false

/-- Bounded check that the extension occurs nowhere before the final
position of `stem ++ ext`. -/
def noEarlierOcc (stem ext : List Char) : Bool :=
  (List.range stem.length).all
    (fun k => !(ext.isPrefixOf ((stem ++ ext).drop k)))

/-! Helper lemmas about the numeric classifier. -/

theorem isSign_not_digit {c : Char} (h : isSign c = true) : c.isDigit = false := by
  rcases (by simpa [isSign] using h : c = '-' ∨ c = '+') with h | h <;> subst h <;> decide

theorem dropWhile_isSign_of_all_digit (l : List Char)
    (h : ∀ x ∈ l, x.isDigit = true) : l.dropWhile isSign = l := by
  cases l with
  | nil => rfl
  | cons c rest =>
    have hc : c.isDigit = true := h c (by simp)
    have hs : isSign c = false := by
      cases hsign : isSign c
      · rfl
      · rw [isSign_not_digit hsign] at hc; cases hc
    simp [List.dropWhile, hs]

theorem pyIsdigit_single_sign (t : List Char)
    (h : pyIsdigit (stripOneSign t) = true) :
    pyIsdigit (t.dropWhile isSign) = true := by
  cases t with
  | nil => simpa [stripOneSign] using h
  | cons c rest =>
    by_cases hs : isSign c = true
    · have hrest : rest.dropWhile isSign = rest := by
        apply dropWhile_isSign_of_all_digit
        simp [stripOneSign, hs, pyIsdigit] at h
        exact h.2
      simp only [List.dropWhile, hs, hrest]
      simpa [stripOneSign, hs] using h
    · have hs' : isSign c = false := by simpa using hs
      simp only [List.dropWhile, hs']
      simpa [stripOneSign, hs'] using h

theorem afterDigit_all_digit (ds : List Char) (h : ∀ x ∈ ds, x.isDigit = true) :
    afterDigit ds = [] := by
  induction ds with
  | nil => rfl
  | cons d ds ih =>
    have hd : d.isDigit = true := h d (by simp)
    rw [afterDigit.eq_def]
    simp [hd, ih (fun x hx => h x (by simp [hx]))]

theorem afterDigit_digits_dot (ds r2 : List Char)
    (h : ∀ x ∈ ds, x.isDigit = true) :
    afterDigit (ds ++ '.' :: r2) = '.' :: r2 := by
  induction ds with
  | nil =>
    rw [List.nil_append, afterDigit.eq_def]
    simp [(by decide : ('.' : Char).isDigit = false),
      (by decide : ¬('.' : Char) = '_')]
  | cons d ds ih =>
    have hd : d.isDigit = true := h d (by simp)
    rw [List.cons_append, afterDigit.eq_def]
    simp [hd, ih (fun x hx => h x (by simp [hx]))]

theorem digitRun_all_digit (ds : List Char) (h1 : ds ≠ [])
    (h2 : ∀ x ∈ ds, x.isDigit = true) : digitRun ds = some [] := by
  cases ds with
  | nil => exact absurd rfl h1
  | cons d ds =>
    have hd : d.isDigit = true := h2 d (by simp)
    simp [digitRun, hd, afterDigit_all_digit ds (fun x hx => h2 x (by simp [hx]))]

theorem digitRun_digits_dot (ds r2 : List Char) (h1 : ds ≠ [])
    (h2 : ∀ x ∈ ds, x.isDigit = true) :
    digitRun (ds ++ '.' :: r2) = some ('.' :: r2) := by
  cases ds with
  | nil => exact absurd rfl h1
  | cons d ds =>
    have hd : d.isDigit = true := h2 d (by simp)
    simp [digitRun, hd, afterDigit_digits_dot ds r2 (fun x hx => h2 x (by simp [hx]))]

theorem pyNumber_digits (ds : List Char) (h1 : ds ≠ [])
    (h2 : ∀ x ∈ ds, x.isDigit = true) : pyNumber ds = true := by
  unfold pyNumber
  rw [digitRun_all_digit ds h1 h2]
  rfl

theorem pyNumber_digits_dot (ds r2 : List Char) (h1 : ds ≠ [])
    (h2 : ∀ x ∈ ds, x.isDigit = true) (h3 : ∀ x ∈ r2, x.isDigit = true) :
    pyNumber (ds ++ '.' :: r2) = true := by
  unfold pyNumber
  rw [digitRun_digits_dot ds r2 h1 h2]
  dsimp only [List.head?, List.tail_cons]
  rw [if_pos rfl]
  cases r2 with
  | nil => rfl
  | cons c cs =>
    rw [digitRun_all_digit (c :: cs) (by simp) h3]
    rfl

theorem pyNumber_dot_digits (r2 : List Char) (h1 : r2 ≠ [])
    (h2 : ∀ x ∈ r2, x.isDigit = true) : pyNumber ('.' :: r2) = true := by
  unfold pyNumber
  have hnone : digitRun ('.' :: r2) = none := by
    simp [digitRun, (by decide : ('.' : Char).isDigit = false)]
  rw [hnone]
  dsimp only [List.head?, List.tail_cons]
  rw [if_pos rfl]
  rw [digitRun_all_digit r2 h1 h2]
  rfl

theorem pyFloat_of_pyNumber (t : List Char)
    (h : pyNumber (stripOneSign t) = true) : pyFloat t = true := by
  unfold pyFloat
  dsimp only
  split
  · rfl
  · exact h

theorem specDecimal_pyFloat (t : List Char) (h : specDecimal t = true) :
    pyFloat t = true := by
  apply pyFloat_of_pyNumber
  unfold specDecimal at h
  set u := stripOneSign t with hu
  dsimp only at h
  by_cases hd : (u.takeWhile Char.isDigit).isEmpty = true
  · rw [if_pos hd] at h
    simp only [Bool.and_eq_true, decide_eq_true_eq] at h
    obtain ⟨h1, h2⟩ := h
    have hut : u = '.' :: u.tail := by
      cases hcu : u with
      | nil => rw [hcu] at h1; cases h1
      | cons a b =>
        rw [hcu] at h1
        simp only [List.head?] at h1
        injection h1 with h1
        simp [h1]
    rw [hut]
    simp only [pyIsdigit, Bool.and_eq_true, Bool.not_eq_true', List.all_eq_true] at h2
    exact pyNumber_dot_digits u.tail (by simpa [List.isEmpty_iff] using h2.1) h2.2
  · rw [if_neg hd] at h
    have htw : ∀ x ∈ u.takeWhile Char.isDigit, x.isDigit = true :=
      fun x hx => List.mem_takeWhile_imp hx
    have hne : u.takeWhile Char.isDigit ≠ [] := by
      simpa [List.isEmpty_iff] using hd
    have hsplit : u.takeWhile Char.isDigit ++ u.dropWhile Char.isDigit = u :=
      List.takeWhile_append_dropWhile Char.isDigit u
    simp only [Bool.or_eq_true, Bool.and_eq_true, decide_eq_true_eq] at h
    rcases h with h1 | ⟨h1, h2⟩
    · have hnil : u.dropWhile Char.isDigit = [] := by
        simpa [List.isEmpty_iff] using h1
      rw [← hsplit, hnil, List.append_nil]
      exact pyNumber_digits _ hne htw
    · have hdrop : u.dropWhile Char.isDigit = '.' :: (u.dropWhile Char.isDigit).tail := by
        cases hcu : u.dropWhile Char.isDigit with
        | nil => rw [hcu] at h1; cases h1
        | cons a b =>
          rw [hcu] at h1
          simp only [List.head?] at h1
          injection h1 with h1
          simp [h1]
      rw [← hsplit, hdrop]
      apply pyNumber_digits_dot _ _ hne htw
      intro x hx
      rw [List.all_eq_true] at h2
      exact h2 x hx

/-- C2 counterexample: the code classifies `apple` as numeric (its
uppercase form ends in `E`, and Python `float()` additionally accepts
`inf`/`nan`), although `apple` is a letter-containing string matching
none of the spec's listed numeric-like forms, so the claimed exact
characterisation fails. -/
theorem is_number_cex :
    is_number_or_scientific (chars "apple") = true
    ∧ specNumberForm (chars "apple") = false
    ∧ hasLetter (chars "apple") = true := by
  refine ⟨by decide, by decide, by decide⟩

/-- C2 (amended): `is_number_or_scientific` returns true exactly for the
spec's listed forms EXTENDED BY: digit strings preceded by any run of
signs, anything Python `float()` accepts (exponents without an integer
part, underscore digit grouping, `inf`/`infinity`/`nan`) directly or
after comma-to-dot substitution, and any string whose last character is
`e`/`E`. -/
theorem is_number_amended (s : List Char) :
    is_number_or_scientific s = (specNumberForm s || amendedExtras s) := by
  unfold is_number_or_scientific specNumberForm amendedExtras
  dsimp only
  rw [Bool.eq_iff_iff]
  simp only [Bool.or_eq_true, or_assoc]
  constructor
  · rintro (h | h | h | h | h | h | h | h | h | h)
    · exact Or.inl (h)
    · exact Or.inr (Or.inl (h))
    · exact Or.inr (Or.inr (Or.inl (h)))
    · exact Or.inr (Or.inr (Or.inr (Or.inr (Or.inr (Or.inr (Or.inr (Or.inr (Or.inr (Or.inl (h))))))))))
    · exact Or.inr (Or.inr (Or.inr (Or.inr (Or.inr (Or.inr (Or.inr (Or.inr (Or.inr (Or.inr (Or.inl (h)))))))))))
    · exact Or.inr (Or.inr (Or.inr (Or.inr (Or.inr (Or.inr (Or.inr (Or.inr (Or.inr (Or.inr (Or.inr (Or.inl (h))))))))))))
    · exact Or.inr (Or.inr (Or.inr (Or.inr (Or.inr (Or.inr (Or.inr (Or.inr (Or.inr (Or.inr (Or.inr (Or.inr (h))))))))))))
    · exact Or.inr (Or.inr (Or.inr (Or.inr (Or.inr (Or.inr (Or.inl (h)))))))
    · exact Or.inr (Or.inr (Or.inr (Or.inr (Or.inr (Or.inr (Or.inr (Or.inl (h))))))))
    · exact Or.inr (Or.inr (Or.inr (Or.inr (Or.inr (Or.inr (Or.inr (Or.inr (Or.inl (h)))))))))
  · rintro (h | h | h | h | h | h | h | h | h | h | h | h | h)
    · exact Or.inl (h)
    · exact Or.inr (Or.inl (h))
    · exact Or.inr (Or.inr (Or.inl (h)))
    · exact Or.inr (Or.inr (Or.inr (Or.inl (pyIsdigit_single_sign _ h))))
    · exact Or.inr (Or.inr (Or.inr (Or.inr (Or.inl (specDecimal_pyFloat _ h)))))
    · exact Or.inr (Or.inr (Or.inr (Or.inr (Or.inr (Or.inl (specDecimal_pyFloat _ h))))))
    · exact Or.inr (Or.inr (Or.inr (Or.inr (Or.inr (Or.inr (Or.inr (Or.inl (h))))))))
    · exact Or.inr (Or.inr (Or.inr (Or.inr (Or.inr (Or.inr (Or.inr (Or.inr (Or.inl (h)))))))))
    · exact Or.inr (Or.inr (Or.inr (Or.inr (Or.inr (Or.inr (Or.inr (Or.inr (Or.inr (h)))))))))
    · exact Or.inr (Or.inr (Or.inr (Or.inl (h))))
    · exact Or.inr (Or.inr (Or.inr (Or.inr (Or.inl (h)))))
    · exact Or.inr (Or.inr (Or.inr (Or.inr (Or.inr (Or.inl (h))))))
    · exact Or.inr (Or.inr (Or.inr (Or.inr (Or.inr (Or.inr (Or.inl (h)))))))
/-- C8 counterexample: the line `C:\path\to\file=something` is NOT
skipped by extraction; the drive-path check applies to the value after
`=`, not to the key, so an item is emitted. -/
theorem path_line_cex :
    extractLine 0 (chars "C:\\path\\to\\file=something") ≠ [] := by decide

/-- C8 (amended): on `C:\path\to\file=something` extraction emits
exactly one `key_value` item with key `C:\path\to\file` and value
`something`; the drive-path skip applies to values, so a line whose
VALUE starts with `C:\` emits nothing. -/
theorem path_line_amended :
    extractLine 0 (chars "C:\\path\\to\\file=something")
      = [{ line_num := 0, key := chars "C:\\path\\to\\file",
           value := chars "something",
           original_line := chars "C:\\path\\to\\file=something",
           type := UType.key_value }]
    ∧ extractLine 0 (chars "file=C:\\path\\to\\x") = [] := by
  refine ⟨by decide, by decide⟩

/-- C3: evaluating `update_file_with_translations` at two same-line
`csv_cell` updates shows the clobber: each update rebuilds the line from
the stored ORIGINAL line, so the second update reverts the first one's
column (`X` is lost; the claim and the spec's invariant require
`X;b;Y`). -/
theorem csv_same_line_clobber :
    update_file_with_translations [chars "a;b;c\n"]
      [{ line_num := 0, translated_value := chars "X", type := UType.csv_cell,
         original_line := chars "a;b;c\n", column_index := 0 },
       { line_num := 0, translated_value := chars "Y", type := UType.csv_cell,
         original_line := chars "a;b;c\n", column_index := 2 }]
      = [chars "a;b;Y\n"]
    ∧ chars "a;b;Y\n" ≠ chars "X;b;Y\n" := by
  refine ⟨by decide, by decide⟩

/-- C9 counterexample: `str.replace` rewrites EVERY occurrence of
`.dat`/`.txt`, not just the final extension: `my.data.txt` gains the
marker twice instead of once before the extension. -/
theorem output_name_cex :
    outputName (chars "my.data.txt") = chars "my_translated.data_translated.txt"
    ∧ chars "my_translated.data_translated.txt" ≠ chars "my.data_translated.txt" := by
  refine ⟨by decide, by decide⟩

/-! Helper lemmas about `replaceAll` / `outputName`. -/

theorem replFuel_nil (old new : List Char) (fuel : Nat) :
    replFuel old new fuel [] = [] := by
  cases fuel <;> rfl

theorem replFuel_no_occ (old new s : List Char)
    (h : containsSub old s = false) :
    replFuel old new s.length s = s := by
  induction s with
  | nil => rfl
  | cons c rest ih =>
    rw [containsSub] at h
    simp only [Bool.or_eq_false_iff] at h
    rw [List.length_cons, replFuel]
    rw [if_neg (by simp [h.1])]
    rw [ih h.2]

theorem replace_no_occ (old new s : List Char)
    (h : containsSub old s = false) : replaceAll s old new = s :=
  replFuel_no_occ old new s h

theorem replFuel_single_end (ext new stem : List Char) (hne : ext ≠ [])
    (h : ∀ k, k < stem.length → ext.isPrefixOf ((stem ++ ext).drop k) = false) :
    replFuel ext new (stem ++ ext).length (stem ++ ext) = stem ++ new := by
  induction stem with
  | nil =>
    simp only [List.nil_append]
    cases hext : ext with
    | nil => exact absurd hext hne
    | cons e ext2 =>
      rw [List.length_cons, replFuel]
      rw [if_pos ⟨by simp, List.isPrefixOf_iff_prefix.mpr (List.prefix_refl (e :: ext2))⟩]
      rw [List.drop_length, replFuel_nil, List.append_nil]
  | cons c stem2 ih =>
    rw [List.cons_append, List.length_cons, replFuel]
    rw [if_neg (by
      intro hcon
      have h0 := h 0 (by simp)
      rw [List.drop_zero, List.cons_append] at h0
      rw [h0] at hcon
      exact (by simpa using hcon.2))]
    rw [ih (fun k hk => by
      have hk1 := h (k + 1) (by simpa using Nat.succ_lt_succ hk)
      rw [List.cons_append, List.drop_succ_cons] at hk1
      exact hk1)]
    simp

theorem noEarlierOcc_spec (stem ext : List Char)
    (h : noEarlierOcc stem ext = true) :
    ∀ k, k < stem.length → ext.isPrefixOf ((stem ++ ext).drop k) = false := by
  intro k hk
  have := (List.all_eq_true.mp h) k (List.mem_range.mpr hk)
  simpa using this

/-- C9 (amended): the output name replaces every occurrence of `.dat`
and then of `.txt` with the marked variant; when the extension substring
occurs only as the final extension (and the other extension does not
occur at all), this is exactly inserting `_translated` before the final
extension.  The output encoding is always UTF-8. -/
theorem output_name_amended (stem : List Char) :
    (containsSub (chars ".dat") (stem ++ chars ".txt") = false →
     noEarlierOcc stem (chars ".txt") = true →
     outputName (stem ++ chars ".txt") = stem ++ chars "_translated.txt")
    ∧ (noEarlierOcc stem (chars ".dat") = true →
       containsSub (chars ".txt") (stem ++ chars "_translated.dat") = false →
       outputName (stem ++ chars ".dat") = stem ++ chars "_translated.dat")
    ∧ outputEncoding = chars "utf-8" := by
  refine ⟨fun h1 h2 => ?_, fun h1 h2 => ?_, rfl⟩
  · unfold outputName replaceAll
    rw [replFuel_no_occ _ _ _ h1]
    rw [replFuel_single_end _ _ _ (by decide) (noEarlierOcc_spec _ _ h2)]
  · unfold outputName replaceAll
    rw [replFuel_single_end _ _ _ (by decide) (noEarlierOcc_spec _ _ h1)]
    rw [replFuel_no_occ _ _ _ h2]

/-- C9 witness: the amended naming rule evaluated at `file.txt` and
`file.dat`. -/
theorem output_name_amended_witness :
    outputName (chars "file" ++ chars ".txt") = chars "file" ++ chars "_translated.txt"
    ∧ outputName (chars "file" ++ chars ".dat") = chars "file" ++ chars "_translated.dat"
    ∧ outputEncoding = chars "utf-8" :=
  ⟨(output_name_amended (chars "file")).1 (by decide) (by decide),
   (output_name_amended (chars "file")).2.1 (by decide) (by decide),
   (output_name_amended (chars "file")).2.2⟩

/-- C6 counterexample: for the line `k =hello` (whose value passes all
translatability checks) the emitted item's key is the TRIMMED text
`k`, not the raw substring `k ` before the first `=` as claimed. -/
theorem kv_key_cex :
    (extractLine 0 (chars "k =hello")).map Item.key = [chars "k"]
    ∧ eqKey (pstrip (chars "k =hello")) = chars "k "
    ∧ chars "k" ≠ chars "k " := by
  refine ⟨by decide, by decide, by decide⟩

/-- C6 (amended): for every stripped line that is not skipped, contains
`=`, and whose value passes the translatability checks, extraction emits
exactly one `key_value` item whose key is the TRIMMED substring of the
stripped line before the first `=` and whose value is the trimmed
substring after it. -/
theorem kv_extraction (n : Nat) (ol : List Char)
    (h1 : (pstrip ol = [] || (chars "#").isPrefixOf (pstrip ol)
        || (chars "[").isPrefixOf (pstrip ol)
        || (chars "//").isPrefixOf (pstrip ol)) = false)
    (h2 : (pstrip ol).contains '=' = true)
    (h3 : (eqValue (pstrip ol) = []
        || (chars "C:\\").isPrefixOf (eqValue (pstrip ol))
        || is_number_or_scientific (eqValue (pstrip ol))
        || decide ((eqValue (pstrip ol)).length < 2)) = false)
    (h4 : ((eqValue (pstrip ol)).contains '['
        && (eqValue (pstrip ol)).contains ']') = false)
    (h5 : (hasLetter (eqValue (pstrip ol))
        && !((chars "http").isPrefixOf (eqValue (pstrip ol)))) = true) :
    extractLine n ol
      = [{ line_num := n, key := pstrip (eqKey (pstrip ol)),
           value := eqValue (pstrip ol), original_line := ol,
           type := UType.key_value }] := by
  unfold extractLine
  dsimp only
  rw [if_neg (by rw [h1]; simp), if_pos h2,
    if_neg (by rw [h3]; simp), if_neg (by rw [h4]; simp), if_pos h5]

/-- C6 witness: the amended extraction rule evaluated on
`name=Hello World`. -/
theorem kv_extraction_witness :
    extractLine 0 (chars "name=Hello World\n")
      = [{ line_num := 0, key := chars "name", value := chars "Hello World",
           original_line := chars "name=Hello World\n",
           type := UType.key_value }] := by
  have h := kv_extraction 0 (chars "name=Hello World\n")
    (by decide) (by decide) (by decide) (by decide) (by decide)
  exact h.trans (by decide)

theorem csvItems_all_csv (n : Nat) (ol : List Char) (idx : Nat)
    (ps : List (List Char)) :
    (csvItems n ol idx ps).all
      (fun it => decide (it.type = UType.csv_cell)) = true := by
  induction ps generalizing idx with
  | nil => rfl
  | cons p rest ih =>
    rw [csvItems.eq_def]
    dsimp only
    rw [List.all_append]
    refine (Bool.and_eq_true _ _).mpr ⟨?_, ih (idx + 1)⟩
    split
    · rfl
    · split
      · rfl
      · split <;> rfl

/-- C7: every item emitted for a line has the type of the FIRST matching
separator rule, in the order `=`, `;`, `": "`, free-text fallback: a
line is never classified by two rules. -/
theorem classification_first_separator (n : Nat) (ol : List Char) :
    (extractLine n ol).all
      (fun it => decide (it.type = lineClass (pstrip ol))) = true := by
  unfold extractLine
  dsimp only
  by_cases h0 : (pstrip ol = [] || (chars "#").isPrefixOf (pstrip ol)
      || (chars "[").isPrefixOf (pstrip ol)
      || (chars "//").isPrefixOf (pstrip ol)) = true
  · rw [if_pos h0]; rfl
  · rw [if_neg h0]
    by_cases h1 : (pstrip ol).contains '=' = true
    · rw [if_pos h1]
      have hc : lineClass (pstrip ol) = UType.key_value := by
        unfold lineClass; rw [if_pos h1]
      rw [hc]
      split
      · rfl
      · split
        · rfl
        · split <;> rfl
    · rw [if_neg h1]
      by_cases h2 : (pstrip ol).contains ';' = true
      · rw [if_pos h2]
        have hc : lineClass (pstrip ol) = UType.csv_cell := by
          unfold lineClass; rw [if_neg h1, if_pos h2]
        rw [hc]
        exact csvItems_all_csv n ol 0 (splitSemi (pstrip ol))
      · rw [if_neg h2]
        cases hb : breakOnCS (pstrip ol) with
        | some kv =>
          obtain ⟨k, v⟩ := kv
          have hc : lineClass (pstrip ol) = UType.colon_value := by
            unfold lineClass
            rw [if_neg h1, if_neg h2, hb]
            rfl
          rw [hc]
          dsimp only
          split
          · rfl
          · split
            · rfl
            · split <;> rfl
        | none =>
          have hc : lineClass (pstrip ol) = UType.full_line := by
            unfold lineClass
            rw [if_neg h1, if_neg h2, hb]
            rfl
          rw [hc]
          dsimp only
          split
          · rfl
          · split <;> rfl

theorem applyUpdate_length (content : List (List Char)) (u : Update) :
    (applyUpdate content u).length = content.length := by
  unfold applyUpdate
  split
  · exact List.length_set content u.line_num _
  · rfl

theorem ufwt_length (us : List Update) (content : List (List Char)) :
    (update_file_with_translations content us).length = content.length := by
  induction us generalizing content with
  | nil => rfl
  | cons u us ih =>
    unfold update_file_with_translations at ih ⊢
    rw [List.foldl_cons]
    exact (ih (applyUpdate content u)).trans (applyUpdate_length content u)

/-- C10: out-of-range updates are silently skipped — the result has the
same number of lines as the input and equals the result of applying only
the in-range updates (so all in-range updates are still applied, and the
output is still produced). -/
theorem updates_out_of_range (content : List (List Char)) (us : List Update) :
    (update_file_with_translations content us).length = content.length
    ∧ update_file_with_translations content us
      = update_file_with_translations content
          (us.filter (fun u => decide (u.line_num < content.length))) := by
  refine ⟨ufwt_length us content, ?_⟩
  induction us generalizing content with
  | nil => rfl
  | cons u us ih =>
    by_cases hp : u.line_num < content.length
    · rw [List.filter_cons, if_pos (by simpa using hp)]
      unfold update_file_with_translations
      rw [List.foldl_cons, List.foldl_cons]
      have hlen := applyUpdate_length content u
      have := ih (applyUpdate content u)
      unfold update_file_with_translations at this
      rw [hlen] at this
      exact this
    · rw [List.filter_cons, if_neg (by simpa using hp)]
      unfold update_file_with_translations
      rw [List.foldl_cons]
      have hskip : applyUpdate content u = content := by
        unfold applyUpdate
        rw [if_neg hp]
      rw [hskip]
      have := ih content
      unfold update_file_with_translations at this
      exact this

/-! Helper lemmas about the rewriter. -/

theorem getD_set_ne (l : List (List Char)) (n i : Nat) (a : List Char)
    (h : n ≠ i) : (l.set n a).getD i [] = l.getD i [] := by
  simp [List.getD_eq_getElem?_getD, List.getElem?_set_ne h]

theorem getD_set_self (l : List (List Char)) (n : Nat) (a : List Char)
    (h : n < l.length) : (l.set n a).getD n [] = a := by
  simp [List.getD_eq_getElem?_getD, List.getElem?_set_self h]

theorem ufwt_frame (us : List Update) (content : List (List Char)) (i : Nat)
    (h : ∀ u ∈ us, u.line_num ≠ i) :
    (update_file_with_translations content us).getD i []
      = content.getD i [] := by
  induction us generalizing content with
  | nil => rfl
  | cons u us ih =>
    unfold update_file_with_translations at ih ⊢
    rw [List.foldl_cons]
    have step : (applyUpdate content u).getD i [] = content.getD i [] := by
      unfold applyUpdate
      split
      · exact getD_set_ne _ _ _ _ (h u (by simp))
      · rfl
    exact (ih (applyUpdate content u) (fun v hv => h v (by simp [hv]))).trans step

theorem not_mem_of_contains_false {l : List Char} {a : Char}
    (h : l.contains a = false) : ¬ a ∈ l := by
  intro hm
  have h2 : List.elem a l = true := List.elem_iff.mpr hm
  have h3 : List.elem a l = false := h
  rw [h2] at h3
  cases h3

theorem endsOneNL_append (l : List Char) (h : ¬ '\n' ∈ l) :
    endsOneNL (l ++ ['\n']) = true := by
  unfold endsOneNL
  rw [List.reverse_append]
  simp only [List.reverse_cons, List.reverse_nil, List.nil_append,
    List.singleton_append]
  cases hr : l.reverse with
  | nil => rfl
  | cons c tl =>
    have hc : ¬ c = '\n' := by
      intro hceq
      exact h (by
        have : c ∈ l.reverse := by rw [hr]; simp
        rw [List.mem_reverse] at this
        rw [← hceq]
        exact this)
    split
    · rename_i heq
      injection heq with h1 h2
      exact absurd h1 hc
    · rfl

theorem mem_pstrip {l : List Char} {c : Char} (h : c ∈ pstrip l) : c ∈ l := by
  unfold pstrip at h
  rw [List.mem_reverse] at h
  have h2 := (List.dropWhile_sublist isPySpace).mem h
  rw [List.mem_reverse] at h2
  exact (List.dropWhile_sublist isPySpace).mem h2

theorem splitSemi_ne_nil (cs : List Char) : splitSemi cs ≠ [] := by
  cases cs with
  | nil => simp [splitSemi]
  | cons c rest =>
    rw [splitSemi.eq_def]
    dsimp only
    split
    · simp
    · split <;> simp

theorem mem_splitSemi_sub (cs : List Char) :
    ∀ p ∈ splitSemi cs, ∀ c ∈ p, c ∈ cs := by
  induction cs with
  | nil =>
    intro p hp c hc
    simp [splitSemi] at hp
    subst hp
    cases hc
  | cons a rest ih =>
    intro p hp c hc
    rw [splitSemi.eq_def] at hp
    dsimp only at hp
    by_cases ha : a = ';'
    · rw [if_pos ha] at hp
      rcases List.mem_cons.mp hp with rfl | hp'
      · cases hc
      · exact List.mem_cons_of_mem a (ih p hp' c hc)
    · rw [if_neg ha] at hp
      cases hss : splitSemi rest with
      | nil => exact absurd hss (splitSemi_ne_nil rest)
      | cons s ss =>
        rw [hss] at hp
        dsimp only at hp
        rcases List.mem_cons.mp hp with rfl | hp'
        · rcases List.mem_cons.mp hc with rfl | hc'
          · exact List.mem_cons_self c rest
          · exact List.mem_cons_of_mem a
              (ih s (by rw [hss]; exact List.mem_cons_self s ss) c hc')
        · exact List.mem_cons_of_mem a
            (ih p (by rw [hss]; exact List.mem_cons_of_mem s hp') c hc)

theorem mem_joinSemi (ps : List (List Char)) (c : Char) (hc : c ∈ joinSemi ps) :
    c = ';' ∨ ∃ p ∈ ps, c ∈ p := by
  induction ps with
  | nil => cases hc
  | cons p ps ih =>
    cases ps with
    | nil =>
      right
      exact ⟨p, by simp, by simpa [joinSemi] using hc⟩
    | cons q qs =>
      rw [joinSemi.eq_def] at hc
      dsimp only at hc
      rcases List.mem_append.mp hc with h1 | h1
      · exact Or.inr ⟨p, by simp, h1⟩
      · rcases List.mem_cons.mp h1 with rfl | h2
        · exact Or.inl rfl
        · rcases ih h2 with h3 | ⟨r, hr, hcr⟩
          · exact Or.inl h3
          · exact Or.inr ⟨r, List.mem_cons_of_mem p hr, hcr⟩

theorem endsOneNL_synthLine (u : Update) (h : noNL u = true) :
    endsOneNL (synthLine u) = true := by
  obtain ⟨ln, tv, ty, k, ol, ci⟩ := u
  simp only [noNL, Bool.and_eq_true, Bool.not_eq_true'] at h
  obtain ⟨⟨hv, hk⟩, hol⟩ := h
  have hv' := not_mem_of_contains_false hv
  have hk' := not_mem_of_contains_false hk
  have hol' := not_mem_of_contains_false hol
  cases ty with
  | key_value =>
    have heq : k ++ '=' :: tv ++ ['\n'] = (k ++ '=' :: tv) ++ ['\n'] := by simp
    show endsOneNL (k ++ '=' :: tv ++ ['\n']) = true
    rw [heq]
    apply endsOneNL_append
    intro hmem
    rcases List.mem_append.mp hmem with h1 | h1
    · exact hk' h1
    · rcases List.mem_cons.mp h1 with h2 | h2
      · cases h2
      · exact hv' h2
  | colon_value =>
    have heq : k ++ ':' :: ' ' :: tv ++ ['\n'] = (k ++ ':' :: ' ' :: tv) ++ ['\n'] := by
      simp
    show endsOneNL (k ++ ':' :: ' ' :: tv ++ ['\n']) = true
    rw [heq]
    apply endsOneNL_append
    intro hmem
    rcases List.mem_append.mp hmem with h1 | h1
    · exact hk' h1
    · rcases List.mem_cons.mp h1 with h2 | h2
      · cases h2
      · rcases List.mem_cons.mp h2 with h3 | h3
        · cases h3
        · exact hv' h3
  | full_line =>
    show endsOneNL (tv ++ ['\n']) = true
    exact endsOneNL_append tv hv'
  | csv_cell =>
    show endsOneNL (synthLine _) = true
    unfold synthLine
    dsimp only
    apply endsOneNL_append
    intro hmem
    rcases mem_joinSemi _ '\n' hmem with h1 | ⟨p, hp, hcp⟩
    · cases h1
    · have hp2 : p ∈ splitSemi (pstrip ol) ∨ p = tv := by
        by_cases hci : ci < (splitSemi (pstrip ol)).length
        · rw [if_pos hci] at hp
          exact List.mem_or_eq_of_mem_set hp
        · rw [if_neg hci] at hp
          exact Or.inl hp
      rcases hp2 with hp3 | rfl
      · exact hol' (mem_pstrip (mem_splitSemi_sub (pstrip ol) p hp3 '\n' hcp))
      · exact hv' hcp

theorem ufwt_lines (us : List Update) (content : List (List Char))
    (hn : ∀ u ∈ us, noNL u = true) (i : Nat) :
    (update_file_with_translations content us).getD i [] = content.getD i []
    ∨ endsOneNL ((update_file_with_translations content us).getD i []) = true := by
  induction us generalizing content with
  | nil => left; rfl
  | cons u us ih =>
    unfold update_file_with_translations at ih ⊢
    rw [List.foldl_cons]
    rcases ih (applyUpdate content u) (fun v hv => hn v (by simp [hv])) with h | h
    · rw [h]
      unfold applyUpdate
      split
      · next hin =>
        by_cases hi : u.line_num = i
        · subst hi
          right
          rw [getD_set_self _ _ _ hin]
          exact endsOneNL_synthLine u (hn u (by simp))
        · left
          exact getD_set_ne _ _ _ _ hi
      · left; rfl
    · right; exact h

/-- C5 counterexample: a translated value that itself ends in a newline
produces a synthesized line ending in TWO newline terminators, so "every
synthesized line ends with exactly one newline" fails for arbitrary
update lists. -/
theorem rewriter_newline_cex :
    update_file_with_translations [chars "x\n"]
      [{ line_num := 0, translated_value := chars "a\n",
         type := UType.full_line }]
      = [chars "a\n\n"]
    ∧ endsOneNL (chars "a\n\n") = false := by
  refine ⟨by decide, by decide⟩

/-- C5 (amended): with an empty update list the output equals the input;
lines whose index is no update's `line_num` are byte-identical to the
input; and provided no update carries a newline inside its key,
translated value, or stored original line, every output line is either
an untouched input line or ends with exactly one newline terminator. -/
theorem rewriter_frame (content : List (List Char)) (us : List Update) :
    update_file_with_translations content [] = content
    ∧ (∀ i : Nat, (∀ u ∈ us, u.line_num ≠ i) →
        (update_file_with_translations content us).getD i []
          = content.getD i [])
    ∧ ((∀ u ∈ us, noNL u = true) → ∀ i : Nat,
        (update_file_with_translations content us).getD i [] = content.getD i []
        ∨ endsOneNL ((update_file_with_translations content us).getD i []) = true) :=
  ⟨rfl, fun i h => ufwt_frame us content i h, fun hn i => ufwt_lines us content hn i⟩

/-- C5 witness: the amended rewriter contract evaluated on a two-line
file with one newline-free `full_line` update on line 0. -/
theorem rewriter_frame_witness :
    (update_file_with_translations [chars "x\n", chars "y\n"]
       [{ line_num := 0, translated_value := chars "ab",
          type := UType.full_line }]).getD 1 []
      = ([chars "x\n", chars "y\n"] : List (List Char)).getD 1 []
    ∧ ((update_file_with_translations [chars "x\n", chars "y\n"]
          [{ line_num := 0, translated_value := chars "ab",
             type := UType.full_line }]).getD 0 []
         = ([chars "x\n", chars "y\n"] : List (List Char)).getD 0 []
       ∨ endsOneNL ((update_file_with_translations [chars "x\n", chars "y\n"]
            [{ line_num := 0, translated_value := chars "ab",
               type := UType.full_line }]).getD 0 []) = true) :=
  ⟨(rewriter_frame [chars "x\n", chars "y\n"] _).2.1 1 (by decide),
   (rewriter_frame [chars "x\n", chars "y\n"] _).2.2 (by decide) 0⟩

/-! Helper lemmas about the retry wrapper. -/

theorem tbwr_delays (budget : Nat) :
    ∀ (rc : Nat) (backend : Attempt),
      (tbwrGo backend rc budget).2.length ≤ budget
      ∧ ∀ i, i < (tbwrGo backend rc budget).2.length →
          (tbwrGo backend rc budget).2.getD i 0 = (rc + i + 1) * 2 := by
  induction budget with
  | zero =>
    intro rc backend
    cases hb : backend rc <;> simp [tbwrGo, hb]
  | succ b ih =>
    intro rc backend
    cases hb : backend rc with
    | ok t => simp [tbwrGo, hb]
    | error e =>
      by_cases hn : netErr e = true
      · have hd : (tbwrGo backend rc (b + 1)).2
            = (rc + 1) * 2 :: (tbwrGo backend (rc + 1) b).2 := by
          simp [tbwrGo, hb, hn]
        constructor
        · rw [hd, List.length_cons]
          exact Nat.succ_le_succ (ih (rc + 1) backend).1
        · intro i hi
          rw [hd]
          cases i with
          | zero => simp
          | succ j =>
            rw [List.getD_cons_succ]
            have hj : j < (tbwrGo backend (rc + 1) b).2.length := by
              rw [hd, List.length_cons] at hi
              omega
            rw [(ih (rc + 1) backend).2 j hj]
            ring
      · have hn' : netErr e = false := by simpa using hn
        simp [tbwrGo, hb, hn']

theorem tbwr_none_of_all_net (budget : Nat) :
    ∀ (rc : Nat) (backend : Attempt),
      (∀ k, rc ≤ k → k ≤ rc + budget → isNetFail (backend k) = true) →
      (tbwrGo backend rc budget).1 = none := by
  induction budget with
  | zero =>
    intro rc backend h
    have hk := h rc (Nat.le_refl rc) (by omega)
    cases hb : backend rc with
    | ok t => rw [hb] at hk; cases hk
    | error e => simp [tbwrGo, hb]
  | succ b ih =>
    intro rc backend h
    have hk := h rc (Nat.le_refl rc) (by omega)
    cases hb : backend rc with
    | ok t => rw [hb] at hk; cases hk
    | error e =>
      have hn : netErr e = true := by simpa [isNetFail, hb] using hk
      have : (tbwrGo backend rc (b + 1)).1 = (tbwrGo backend (rc + 1) b).1 := by
        simp [tbwrGo, hb, hn]
      rw [this]
      exact ih (rc + 1) backend (fun k h1 h2 => h k (by omega) (by omega))

/-- C4: with the default budget of 3 retries, a block sees at most 3
backoff sleeps, the i-th sleep is the linear `(i+1)*2` seconds, a
non-network-classified first failure yields no retry at all and a `none`
result, exhausting the budget on network-classified failures yields
`none`, and a `none` result makes the block's output fall back to its
original texts (the whole computation is total, so the run never
aborts). -/
theorem retry_policy (backend : Attempt) :
    (translate_block_with_retry backend 3 0).2.length ≤ 3
    ∧ (∀ i, i < (translate_block_with_retry backend 3 0).2.length →
        (translate_block_with_retry backend 3 0).2.getD i 0 = (i + 1) * 2)
    ∧ (∀ e, backend 0 = Except.error e → netErr e = false →
        translate_block_with_retry backend 3 0 = (none, []))
    ∧ ((∀ k, k ≤ 3 → isNetFail (backend k) = true) →
        (translate_block_with_retry backend 3 0).1 = none)
    ∧ (∀ b : List (List Char),
        (translate_block_with_retry backend 3 0).1 = none →
        processBlock (translate_block_with_retry backend 3 0).1 b = b) := by
  refine ⟨(tbwr_delays 3 0 backend).1, ?_, ?_, ?_, ?_⟩
  · intro i hi
    have h := (tbwr_delays 3 0 backend).2 i hi
    simpa using h
  · intro e hb hn
    unfold translate_block_with_retry
    simp [tbwrGo, hb, hn]
  · intro h
    exact tbwr_none_of_all_net 3 0 backend
      (fun k h1 h2 => h k (by omega))
  · intro b h
    rw [h]
    rfl

/-- C4 witness: a permanently network-failing backend sleeps 2 seconds
first and degrades to `none` with the block falling back to the
original; a non-network failure gives up immediately. -/
theorem retry_policy_witness :
    (translate_block_with_retry
       (fun _ => Except.error (chars "connection timeout")) 3 0).2.length ≤ 3
    ∧ (translate_block_with_retry
        (fun _ => Except.error (chars "connection timeout")) 3 0).2.getD 0 0 = 2
    ∧ translate_block_with_retry (fun _ => Except.error (chars "boom")) 3 0
        = (none, [])
    ∧ (translate_block_with_retry
        (fun _ => Except.error (chars "connection timeout")) 3 0).1 = none
    ∧ processBlock (translate_block_with_retry
        (fun _ => Except.error (chars "connection timeout")) 3 0).1 [chars "t"]
        = [chars "t"] := by
  refine ⟨(retry_policy _).1, ?_,
    (retry_policy _).2.2.1 (chars "boom") rfl (by decide),
    (retry_policy _).2.2.2.1 (fun k _ => rfl),
    (retry_policy _).2.2.2.2 [chars "t"]
      ((retry_policy _).2.2.2.1 (fun k _ => rfl))⟩
  exact (retry_policy
    (fun _ => Except.error (chars "connection timeout"))).2.1 0 (by decide)

/-! Helper lemmas about block translation. -/

theorem processBlock_length (tb : Option (List Char)) (b : List (List Char)) :
    (processBlock tb b).length = b.length := by
  cases tb with
  | none => rfl
  | some t =>
    by_cases ht : t = []
    · simp [processBlock, ht]
    · simp only [processBlock, if_neg ht]
      rw [List.length_take, List.length_append, List.length_drop]
      omega

theorem chunksGo_flatten (mbs : Nat) :
    ∀ (ts : List (List Char)) (cur : List (List Char)) (curLen : Nat),
      (chunksGo mbs cur curLen ts).flatten = cur ++ ts := by
  intro ts
  induction ts with
  | nil =>
    intro cur curLen
    by_cases hc : cur = [] <;> simp [chunksGo, hc]
  | cons t rest ih =>
    intro cur curLen
    by_cases hcond : curLen + t.length > mbs ∧ cur ≠ []
    · simp [chunksGo, hcond, ih]
    · simp [chunksGo, hcond, ih]

theorem ttibGo_chunks (backend : List Char → Attempt) (mbs mr : Nat) :
    ∀ (ts acc cur : List (List Char)) (curLen : Nat),
      ttibGo backend mbs mr acc cur curLen ts
        = acc ++ ((chunksGo mbs cur curLen ts).map (blockOut backend mr)).flatten := by
  intro ts
  induction ts with
  | nil =>
    intro acc cur curLen
    by_cases hc : cur = [] <;> simp [ttibGo, chunksGo, hc, blockOut]
  | cons t rest ih =>
    intro acc cur curLen
    by_cases hcond : curLen + t.length > mbs ∧ cur ≠ []
    · simp [ttibGo, chunksGo, hcond, ih, blockOut, List.append_assoc]
    · simp [ttibGo, chunksGo, hcond, ih]

theorem flatten_map_blockOut_length (backend : List Char → Attempt) (mr : Nat)
    (B : List (List (List Char))) :
    ((B.map (blockOut backend mr)).flatten).length = B.flatten.length := by
  induction B with
  | nil => rfl
  | cons b bs ih =>
    simp only [List.map_cons, List.flatten_cons, List.length_append, ih]
    unfold blockOut
    rw [processBlock_length]

theorem processBlock_getD (tb : Option (List Char)) (b : List (List Char))
    (j : Nat) (hj : j < b.length) :
    (processBlock tb b).getD j [] = b.getD j []
    ∨ ∃ t, tb = some t
        ∧ (processBlock tb b).getD j [] = (splitDNL (pstrip t)).getD j [] := by
  cases tb with
  | none => exact Or.inl rfl
  | some t =>
    by_cases ht : t = []
    · left
      simp [processBlock, ht]
    · have hpb : processBlock (some t) b
          = (splitDNL (pstrip t) ++ b.drop (splitDNL (pstrip t)).length).take b.length := by
        simp [processBlock, ht]
      by_cases hj2 : j < (splitDNL (pstrip t)).length
      · right
        refine ⟨t, rfl, ?_⟩
        rw [hpb]
        rw [List.getD_eq_getElem?_getD, List.getD_eq_getElem?_getD]
        rw [List.getElem?_take_of_lt hj, List.getElem?_append_left hj2]
      · left
        rw [hpb]
        rw [List.getD_eq_getElem?_getD, List.getD_eq_getElem?_getD]
        have hle : (splitDNL (pstrip t)).length ≤ j := by omega
        rw [List.getElem?_take_of_lt hj,
          List.getElem?_append_right hle, List.getElem?_drop,
          Nat.add_sub_cancel' hle]

/-- C1: for every backend behavior (success, failure, or a blob that
splits into fewer or more segments than the block has items), the batch
translator returns exactly as many texts as it was given; the input is
partitioned into blocks, the output is the concatenation of the
per-block outputs, and within each block the j-th output is either the
j-th original text or the j-th segment of that block's translated
blob. -/
theorem translate_length_pairing (backend : List Char → Attempt)
    (mbs mr : Nat) (texts : List (List Char)) :
    (translate_texts_in_blocks backend texts mbs mr).length = texts.length
    ∧ (blocksOf mbs texts).flatten = texts
    ∧ translate_texts_in_blocks backend texts mbs mr
        = ((blocksOf mbs texts).map (blockOut backend mr)).flatten
    ∧ ∀ b, b ∈ blocksOf mbs texts → ∀ j, j < b.length →
        ((blockOut backend mr b).getD j [] = b.getD j []
         ∨ ∃ t, blockResult backend mr (joinDNL b) = some t
             ∧ (blockOut backend mr b).getD j []
                 = (splitDNL (pstrip t)).getD j []) := by
  have hchunks : (blocksOf mbs texts).flatten = texts := by
    have h := chunksGo_flatten mbs texts [] 0
    simpa [blocksOf] using h
  have heq : translate_texts_in_blocks backend texts mbs mr
      = ((blocksOf mbs texts).map (blockOut backend mr)).flatten := by
    have h := ttibGo_chunks backend mbs mr texts [] [] 0
    simpa [translate_texts_in_blocks, blocksOf] using h
  refine ⟨?_, hchunks, heq, ?_⟩
  · rw [heq, flatten_map_blockOut_length, hchunks]
  · intro b _ j hj
    exact processBlock_getD (blockResult backend mr (joinDNL b)) b j hj

/-- C1 witness: two texts, one block, a backend whose blob splits into
three segments: the excess segment is discarded and the result still has
length 2, with the pairing instantiated at position 0. -/
theorem translate_length_pairing_witness :
    (translate_texts_in_blocks
       (fun _ _ => Except.ok (chars "P\n\nQ\n\nR"))
       [chars "aa", chars "bb"] 3000 3).length = 2
    ∧ ((blockOut (fun _ _ => Except.ok (chars "P\n\nQ\n\nR")) 3
          [chars "aa", chars "bb"]).getD 0 []
         = ([chars "aa", chars "bb"] : List (List Char)).getD 0 []
       ∨ ∃ t, blockResult (fun _ _ => Except.ok (chars "P\n\nQ\n\nR")) 3
            (joinDNL [chars "aa", chars "bb"]) = some t
           ∧ (blockOut (fun _ _ => Except.ok (chars "P\n\nQ\n\nR")) 3
               [chars "aa", chars "bb"]).getD 0 []
               = (splitDNL (pstrip t)).getD 0 []) :=
  ⟨(translate_length_pairing
      (fun _ _ => Except.ok (chars "P\n\nQ\n\nR")) 3000 3
      [chars "aa", chars "bb"]).1,
   (translate_length_pairing
      (fun _ _ => Except.ok (chars "P\n\nQ\n\nR")) 3000 3
      [chars "aa", chars "bb"]).2.2.2
     [chars "aa", chars "bb"] (by decide) 0 (by decide)⟩
